import Mathlib

/-!
Verification development for the styx compiler front end.

The definitions below are a shallow embedding of the Rust sources:
  - src/compiler/styxc_types/src/lib.rs   (structural type system)
  - src/compiler/styxc_ast/src/operations.rs (operator model)
  - src/compiler/styxc_walker/src/lib.rs  (scope walker)
  - src/compiler/styxc_lexer/src/lib.rs   (token lexer)

Rust `Vec<T>` becomes `List T` (push appends at the end), fallible or
panicking code returns `Option`/`Except`, and machine strings become
`String` (for symbol names) or `List Char` (for lexer slices, where byte
offsets are computed with `Char.utf8Size`).
-/

/-- Embedding of the Rust enum `Type` from styxc_types (named `Ty` because
    `Type` is reserved in Lean).  Payload-carrying variants keep the source
    field order.  Derived `DecidableEq` is the *syntactic* equality used only
    by proofs; the Rust `PartialEq` impl is `equate_types` below. -/
inductive Ty where
  | Int : Ty
  | Float : Ty
  | Bool : Ty
  | Char : Ty
  | String : Ty
  | Tuple : List Ty → Ty
  | Array : Ty → Ty
  | Map : Ty → Ty → Ty
  | Set : Ty → Ty
  | Optional : Ty → Ty
  | Union : List Ty → Ty
  | Intersection : List Ty → Ty
  | Circular : Ty → Ty
  | Func : List Ty → Ty → Ty
  | Reference : String → Ty
  | Unit : Ty
  | Infer : Ty
  | Never : Ty

/-- Embedding of `is_primitive` from styxc_types: only Int, Float, Bool and
    String count as primitives (notably *not* Char or Unit). -/
def is_primitive : Ty → Bool
  | .Int => true
  | .Float => true
  | .Bool => true
  | .String => true
  | _ => false

/-- Embedding of `equate_primitives` from styxc_types. -/
def equate_primitives : Ty → Ty → Bool
  | .Int, .Int => true
  | .Float, .Float => true
  | .Bool, .Bool => true
  | .String, .String => true
  | _, _ => false

/-- Embedding of `equate_types` from styxc_types: primitive equality when both
    sides are primitives, and the catch-all `match (a, b) { _ => false }`
    otherwise. -/
def equate_types (a b : Ty) : Bool :=
  if is_primitive a && is_primitive b then equate_primitives a b
  else false

/-- Embedding of Rust `Vec::contains` on `Vec<Type>`: membership is decided by
    the `PartialEq` impl of `Type`, which is `equate_types`. -/
def ty_list_contains (types : List Ty) (a : Ty) : Bool :=
  types.any (fun t => equate_types t a)

/-- Embedding of `is_subtype` from styxc_types. -/
def is_subtype (a b : Ty) : Bool :=
  if equate_types a b then false
  else
    match b with
    | .Union types => ty_list_contains types a
    | _ => false

/-- Embedding of `Type::intersect` from styxc_types (`self == other` is the
    `PartialEq` impl, hence `equate_types`). -/
def Ty.intersect (a b : Ty) : Ty :=
  if equate_types a b then a else .Never

/-- Embedding of `validate_map_insertion` from styxc_types.  Note the argument
    order of the source: `is_subtype(key, k) && is_subtype(value, v)`. -/
def validate_map_insertion (k v map : Ty) : Bool :=
  match map with
  | .Map key value => is_subtype key k && is_subtype value v
  | _ => false

/-- Embedding of `validate_set_insertion` from styxc_types; the source calls
    `is_subtype(value, v)` with the declared element type first. -/
def validate_set_insertion (v set : Ty) : Bool :=
  match set with
  | .Set value => is_subtype value v
  | _ => false

/-- Embedding of `validate_array_insertion` from styxc_types; the source calls
    `is_subtype(value, v)` with the declared element type first. -/
def validate_array_insertion (v array : Ty) : Bool :=
  match array with
  | .Array value => is_subtype value v
  | _ => false

/-- Embedding of `impl From<String> for Type` from styxc_types.  The Rust
    function panics on any string outside the six primitive spellings; the
    panic is modelled as `none`. -/
def type_from_string (s : String) : Option Ty :=
  match s with
  | "()" => some .Unit
  | "bool" => some .Bool
  | "char" => some .Char
  | "float" => some .Float
  | "int" => some .Int
  | "str" => some .String
  | _ => none

/-- Embedding of `impl FromStr for Type` from styxc_types.  The source never
    returns `Err`, so the embedding is total: unknown names become
    `Type::Reference`. -/
def type_from_str (s : String) : Ty :=
  match s with
  | "()" => .Unit
  | "bool" => .Bool
  | "char" => .Char
  | "float" => .Float
  | "int" => .Int
  | "str" => .String
  | _ => .Reference s

/-- Embedding of `Associativity` from styxc_ast/operations.rs. -/
inductive Associativity where
  | Ltr : Associativity
  | Rtl : Associativity
deriving DecidableEq, Repr

/-- Embedding of `BinaryOp` from styxc_ast/operations.rs. -/
inductive BinaryOp where
  | Plus | Minus | Mul | Div | Mod
  | BitwiseAnd | BitwiseOr | BitwiseXor
  | LogicalAnd | LogicalOr
  | Shl | Shr
  | Eq | Ne | Lt | Gt | Le | Ge
  | Assign | PlusEq | MinusEq | MulEq | DivEq | ModEq
  | BitwiseAndEq | BitwiseOrEq | BitwiseXorEq | ShlEq | ShrEq
deriving DecidableEq, Repr

/-- Embedding of `BinaryOp::precedence` from styxc_ast/operations.rs. -/
def BinaryOp.precedence : BinaryOp → Nat
  | .Mul | .Div | .Mod => 5
  | .Plus | .Minus => 6
  | .Shl | .Shr => 7
  | .BitwiseAnd => 8
  | .BitwiseXor => 9
  | .BitwiseOr => 10
  | .Lt | .Gt | .Le | .Ge => 11
  | .Eq | .Ne => 12
  | .LogicalAnd => 13
  | .LogicalOr => 14
  | _ => 15

/-- Embedding of `BinaryOp::associativity` from styxc_ast/operations.rs:
    every binary operator is left-to-right. -/
def BinaryOp.associativity : BinaryOp → Associativity
  | _ => .Ltr

/-- Modelled from the spec: source span of a node (half-open byte range).  The
    defining styxc_ast module is not under src/; the walker never reads it. -/
structure Span where
  start : Nat
  stop : Nat

/-- Modelled from the spec: `Node<T>` pairs a syntax value with its span
    (styxc_ast's defining module is not under src/; shape confirmed by the
    walker's uses of `.value` and by the sibling fluxc_ast sources). -/
structure Node (T : Type) where
  value : T
  span : Span

/-- Modelled from the spec: literal AST values as matched by the walker's
    `get_expr_type` (variants Bool, Int, Float, String, Char, Array).  The
    f64 payload of Float and the element list of Array are never inspected by
    the walker and are omitted. -/
inductive Literal where
  | Bool : Bool → Literal
  | Int : Int → Literal
  | Float : Literal
  | String : String → Literal
  | Char : Char → Literal
  | Array : Literal

mutual

/-- Modelled from the spec: the expression AST consumed by the walker.  The
    variant list is exactly the one matched in `Walker::get_expr_type`;
    payloads of the unimplemented arms (Block, FuncCall, Conditional, Loop,
    While) are never inspected and are modelled as `Node Unit`. -/
inductive Expr where
  | Literal : Node Literal → Expr
  | Ident : Node String → Expr
  | BinaryExpr : Node BinaryExpr → Expr
  | Block : Node Unit → Expr
  | FuncCall : Node Unit → Expr
  | Conditional : Node Unit → Expr
  | Loop : Node Unit → Expr
  | While : Node Unit → Expr

/-- Embedding of the struct `BinaryExpr` from styxc_ast/operations.rs:
    boxed lhs/rhs child nodes plus the operator kind. -/
inductive BinaryExpr where
  | mk : Node Expr → Node Expr → BinaryOp → BinaryExpr

end

/-- Left-hand side of a binary expression. -/
def BinaryExpr.lhs : BinaryExpr → Node Expr
  | .mk l _ _ => l

/-- Right-hand side of a binary expression. -/
def BinaryExpr.rhs : BinaryExpr → Node Expr
  | .mk _ r _ => r

/-- Operator kind of a binary expression. -/
def BinaryExpr.kind : BinaryExpr → BinaryOp
  | .mk _ _ k => k

/-- Embedding of `Linkage` from styxc_walker. -/
inductive Linkage where
  | Local : Linkage
  | Module : Linkage
  | External : Linkage

/-- Modelled from the spec: a function argument as used by the walker; only
    the `type_expr` annotation (a `Node<String>`) is read when converting a
    `Function` to a `Type` (styxc_ast's defining module is not under src/). -/
structure ParenArgument where
  type_expr : Node String

/-- Embedding of the struct `Function` from styxc_walker. -/
structure Function where
  name : String
  args : List ParenArgument
  linkage : Linkage
  ret_type : Ty

/-- Embedding of the struct `Variable` from styxc_walker. -/
structure Variable where
  name : String
  mutable : Bool
  ty : Ty

/-- Converts the type annotation of every argument in order with the
    panicking `From<String>` conversion; a panic (`none`) anywhere aborts the
    whole collection, as in the Rust iterator chain. -/
def map_arg_types : List ParenArgument → Option (List Ty)
  | [] => some []
  | arg :: rest =>
    match type_from_string arg.type_expr.value with
    | some t => (map_arg_types rest).map (fun ts => t :: ts)
    | none => none

/-- Embedding of `impl From<&Function> for Type` from styxc_walker: each
    argument's textual type annotation is converted with the panicking
    `From<String>` conversion (modelled as `none`), and the results feed
    `Type::Func`. -/
def function_to_type (f : Function) : Option Ty :=
  (map_arg_types f.args).map (fun ts => Ty.Func ts f.ret_type)

/-- Embedding of the struct `Stack<T>` from styxc_walker (a `Vec<T>`). -/
structure Stack (T : Type) where
  contents : List T

/-- Embedding of `Stack::new`. -/
def Stack.new (T : Type) : Stack T := ⟨[]⟩

/-- Embedding of `Stack::push` (`Vec::push` appends at the end). -/
def Stack.push {T : Type} (s : Stack T) (item : T) : Stack T :=
  ⟨s.contents ++ [item]⟩

/-- Embedding of `Stack::find`: iterate the contents in reverse (most recently
    pushed first) and return the first item satisfying the predicate. -/
def Stack.find {T : Type} (s : Stack T) (p : T → Bool) : Option T :=
  s.contents.reverse.find? p

/-- Embedding of the struct `Walker` from styxc_walker.  The Rust fields are
    named `variables` and `functions`; `variables` is a reserved word in
    Lean 4, so the fields are named `vars` and `funcs` here. -/
structure Walker where
  current_function : Option Function
  vars : Stack Variable
  funcs : Stack Function

/-- Embedding of `Walker::new`. -/
def Walker.new : Walker :=
  ⟨none, Stack.new Variable, Stack.new Function⟩

/-- Embedding of `Walker::lookup_variable`. -/
def Walker.lookup_variable (w : Walker) (name : String) : Option Variable :=
  w.vars.find (fun v => v.name == name)

/-- Embedding of `Walker::lookup_function`. -/
def Walker.lookup_function (w : Walker) (name : String) : Option Function :=
  w.funcs.find (fun f => f.name == name)

/-- Embedding of `Walker::get_expr_type`.  The Rust source computes *both*
    operand types of a binary expression from `bin_op.value.lhs` (the second
    read of `lhs` is verbatim from the source) and calls `todo!()` on the
    remaining arms; `todo!()` panics are modelled as `none`. -/
def Walker.get_expr_type (w : Walker) : Expr → Option Ty
  | .Literal literal =>
    some (match literal.value with
      | .Bool _ => Ty.Bool
      | .Int _ => Ty.Int
      | .Float => Ty.Float
      | .String _ => Ty.String
      | .Char _ => Ty.Char
      | .Array => Ty.Array Ty.Infer)
  | .Ident ident =>
    some (match w.lookup_variable ident.value with
      | some var => var.ty
      | none => Ty.Infer)
  | .BinaryExpr ⟨.mk ⟨lhs_value, _⟩ _ _, _⟩ => do
    let lhs ← w.get_expr_type lhs_value
    let rhs ← w.get_expr_type lhs_value
    pure (lhs.intersect rhs)
  | .Block _ => none
  | .FuncCall _ => none
  | .Conditional _ => none
  | .Loop _ => none
  | .While _ => none

/-- Walker whose variable stack holds exactly the given records, in push
    order.  This is the state reached from `Walker::new` after declaring the
    records one by one. -/
def walker_with_vars (vs : List Variable) : Walker :=
  ⟨none, ⟨vs⟩, Stack.new Function⟩

/-- Embedding of the Rust enum `Base` from styxc_lexer. -/
inductive Base where
  | Hexadecimal : Base
  | Decimal : Base
  | Octal : Base
  | Binary : Base
deriving DecidableEq, Repr

/-- Embedding of `Base::parse` from styxc_lexer.  The source strips only a
    leading '-' (`slice.starts_with("-")`), never a leading '+', and then
    inspects the first two characters of what remains. -/
def Base.parse (s : List Char) : Base :=
  if (if s.head? = some '-' then s.drop 1 else s).length < 2 then .Decimal
  else
    match (if s.head? = some '-' then s.drop 1 else s).take 2 with
    | ['0', 'x'] => .Hexadecimal
    | ['0', 'o'] => .Octal
    | ['0', 'b'] => .Binary
    | _ => .Decimal

/-- Restatement of the amended C5 claim in its own words: the base is a pure
    function of the matched slice, determined by the first two characters
    after a leading minus sign ('+' is not treated as a sign here). -/
def specBase (s : List Char) : Base :=
  match (if s.head? = some '-' then s.drop 1 else s) with
  | '0' :: 'x' :: _ => .Hexadecimal
  | '0' :: 'o' :: _ => .Octal
  | '0' :: 'b' :: _ => .Binary
  | _ => .Decimal

/-- Embedding of the Rust enum `LiteralKind` from styxc_lexer. -/
inductive LiteralKind where
  | Error : LiteralKind
  | Int : Base → LiteralKind
  | Float : Base → LiteralKind
  | Char : LiteralKind
  | String : LiteralKind
deriving DecidableEq, Repr

/-- Embedding of the Rust enum `TokenKind` from styxc_lexer. -/
inductive TokenKind where
  | Error : TokenKind
  | Ident : TokenKind
  | Whitespace : TokenKind
  | LineComment : TokenKind
  | BlockComment : TokenKind
  | Literal : LiteralKind → TokenKind
  | Semi : TokenKind
  | OpenBrace : TokenKind
  | CloseBrace : TokenKind
  | OpenParen : TokenKind
  | CloseParen : TokenKind
  | OpenBracket : TokenKind
  | CloseBracket : TokenKind
  | Plus : TokenKind
  | Minus : TokenKind
  | Star : TokenKind
  | Slash : TokenKind
  | Percent : TokenKind
  | Eq : TokenKind
  | Not : TokenKind
  | And : TokenKind
  | Or : TokenKind
  | Lt : TokenKind
  | Gt : TokenKind
  | Caret : TokenKind
  | Tilde : TokenKind
  | Question : TokenKind
  | Colon : TokenKind
  | Dot : TokenKind
  | At : TokenKind
deriving DecidableEq, Repr

/-- Character class `[0-9]` of the literal regexes. -/
def isDigitChar (c : Char) : Bool := '0' ≤ c && c ≤ '9'

/-- Character class `[0-9a-fA-F]` of the hexadecimal literal regex. -/
def isHexDigitChar (c : Char) : Bool :=
  isDigitChar c || ('a' ≤ c && c ≤ 'f') || ('A' ≤ c && c ≤ 'F')

/-- Character class `[0-7]` of the octal literal regex. -/
def isOctDigitChar (c : Char) : Bool := '0' ≤ c && c ≤ '7'

/-- Character class `[01]` of the binary literal regex. -/
def isBinDigitChar (c : Char) : Bool := c == '0' || c == '1'

/-- Character class `[a-zA-Z_]` starting an identifier. -/
def isIdentStartChar (c : Char) : Bool :=
  ('a' ≤ c && c ≤ 'z') || ('A' ≤ c && c ≤ 'Z') || c == '_'

/-- Character class `[a-zA-Z_0-9]` continuing an identifier. -/
def isIdentContChar (c : Char) : Bool := isIdentStartChar c || isDigitChar c

/-- Character class `\s` of the whitespace regex (space, tab, newline,
    carriage return, vertical tab, form feed). -/
def isSpaceChar (c : Char) : Bool :=
  c == ' ' || c == '\t' || c == '\n' || c == '\x0d' || c == '\x0b' || c == '\x0c'

/-- Length of the longest prefix whose characters all satisfy `p`. -/
def takeWhileLen (p : Char → Bool) : List Char → Nat
  | [] => 0
  | c :: cs => if p c then takeWhileLen p cs + 1 else 0

/-- Number of characters consumed by the optional sign `[+-]?`. -/
def signLen : List Char → Nat
  | c :: _ => if c == '+' || c == '-' then 1 else 0
  | [] => 0

/-- Maximal-munch matcher for one or more digits of a class (`D+`).  Returns
    the number of characters matched, or `none` on zero digits. -/
def matchDigits1 (digit : Char → Bool) (cs : List Char) : Option Nat :=
  if takeWhileLen digit cs = 0 then none else some (takeWhileLen digit cs)

/-- Matcher for the regex `[a-zA-Z_][a-zA-Z_0-9]*` (identifier). -/
def matchIdent (cs : List Char) : Option Nat :=
  match cs with
  | c :: rest =>
    if isIdentStartChar c then some (1 + takeWhileLen isIdentContChar rest) else none
  | [] => none

/-- Matcher for the regex `\s+` (whitespace, skipped by logos). -/
def matchWhitespace (cs : List Char) : Option Nat :=
  if takeWhileLen isSpaceChar cs = 0 then none else some (takeWhileLen isSpaceChar cs)

/-- Matcher for the regex `#[^\n]+` (line comment; note the `+`, a bare `#`
    at end of line does not match). -/
def matchLineComment (cs : List Char) : Option Nat :=
  match cs with
  | '#' :: rest =>
    if takeWhileLen (fun c => !(c == '\n')) rest = 0 then none
    else some (1 + takeWhileLen (fun c => !(c == '\n')) rest)
  | _ => none

/-- Index of the last occurrence of the two-character sequence `*/` in the
    list (index of the `*`), if any. -/
def lastStarSlash : List Char → Option Nat
  | [] => none
  | [_] => none
  | c :: d :: rest =>
    match lastStarSlash (d :: rest) with
    | some i => some (i + 1)
    | none => if c == '*' && d == '/' then some 0 else none

/-- Matcher for the greedy regex `/\*(.|\n)*\*/` (block comment): the match
    extends to the *last* closing `*/` of the input. -/
def matchBlockComment (cs : List Char) : Option Nat :=
  match cs with
  | '/' :: '*' :: rest => (lastStarSlash rest).map (fun i => i + 4)
  | _ => none

/-- Matcher for the regex `[+-]?[0-9]+` (decimal integer literal). -/
def matchIntDec (cs : List Char) : Option Nat :=
  (matchDigits1 isDigitChar (cs.drop (signLen cs))).map (fun n => signLen cs + n)

/-- Matcher scheme for the regexes `[+-]?0m D+` where `m` is a radix marker
    character and `D` its digit class. -/
def matchIntRadix (marker : Char) (digit : Char → Bool) (cs : List Char) : Option Nat :=
  match cs.drop (signLen cs) with
  | '0' :: m :: rest =>
    if m == marker then (matchDigits1 digit rest).map (fun n => signLen cs + 2 + n)
    else none
  | _ => none

/-- Matcher for `[+-]?0x[0-9a-fA-F]+`. -/
def matchIntHex : List Char → Option Nat := matchIntRadix 'x' isHexDigitChar

/-- Matcher for `[+-]?0d[0-9]+`. -/
def matchIntDig : List Char → Option Nat := matchIntRadix 'd' isDigitChar

/-- Matcher for `[+-]?0o[0-7]+`. -/
def matchIntOct : List Char → Option Nat := matchIntRadix 'o' isOctDigitChar

/-- Matcher for `[+-]?0b[01]+`. -/
def matchIntBin : List Char → Option Nat := matchIntRadix 'b' isBinDigitChar

/-- Matcher for the regex `[+-]?[0-9]*\.[0-9]+` (dotted float literal). -/
def matchFloatDot (cs : List Char) : Option Nat :=
  match cs.drop (signLen cs + takeWhileLen isDigitChar (cs.drop (signLen cs))) with
  | '.' :: rest =>
    (matchDigits1 isDigitChar rest).map
      (fun n => signLen cs + takeWhileLen isDigitChar (cs.drop (signLen cs)) + 1 + n)
  | _ => none

/-- Matcher for the regex `[+-]?[0-9]+e[+-]?[0-9]+` (exponent float
    literal). -/
def matchFloatExp (cs : List Char) : Option Nat :=
  if takeWhileLen isDigitChar (cs.drop (signLen cs)) = 0 then none
  else
    match cs.drop (signLen cs + takeWhileLen isDigitChar (cs.drop (signLen cs))) with
    | 'e' :: rest =>
      (matchDigits1 isDigitChar (rest.drop (signLen rest))).map
        (fun n =>
          signLen cs + takeWhileLen isDigitChar (cs.drop (signLen cs)) + 1 + signLen rest + n)
    | _ => none

/-- Matcher for the regex `'.'` (character literal; `.` excludes newline). -/
def matchCharLit (cs : List Char) : Option Nat :=
  match cs with
  | '\'' :: c :: '\'' :: _ => if c == '\n' then none else some 3
  | _ => none

/-- Matcher for the regex `'\\u[0-9a-fA-F]{4}'`-style unicode character
    literal of `LiteralKind` (written with four repeated classes in the
    source). -/
def matchUnicodeCharLit (cs : List Char) : Option Nat :=
  match cs with
  | '\'' :: '\\' :: 'u' :: a :: b :: c :: d :: '\'' :: _ =>
    if isHexDigitChar a && isHexDigitChar b && isHexDigitChar c && isHexDigitChar d
    then some 8 else none
  | _ => none

/-- Index of the last occurrence of a character in the list, if any. -/
def lastIdxOf (x : Char) : List Char → Option Nat
  | [] => none
  | c :: cs =>
    match lastIdxOf x cs with
    | some i => some (i + 1)
    | none => if c == x then some 0 else none

/-- Matcher for the `TokenKind` string regex `"("|[^"])*"`: the starred group
    matches any character (the first alternative is a bare quote), so the
    greedy match runs to the last quote of the input. -/
def matchStringTok (cs : List Char) : Option Nat :=
  match cs with
  | '"' :: rest => (lastIdxOf '"' rest).map (fun i => i + 2)
  | _ => none

/-- End position (in characters, counting the opening quote) of the longest
    match of the `LiteralKind` string regex body `([^"]|(\\"))*"` starting at
    group position `pos`: a quote closes the string, and a `\"` pair may be
    skipped over when a longer match exists further right. -/
def litStringEnd : List Char → Nat → Option Nat
  | [], _ => none
  | '"' :: _, pos => some (pos + 1)
  | '\\' :: '"' :: rest, pos =>
    (match litStringEnd rest (pos + 2) with
     | some e => some e
     | none => some (pos + 2))
  | _ :: rest, pos => litStringEnd rest (pos + 1)

/-- Matcher for the `LiteralKind` string regex `"([^"]|(\\"))*"`. -/
def matchStringLit (cs : List Char) : Option Nat :=
  match cs with
  | '"' :: rest => litStringEnd rest 1
  | _ => none

/-- Matcher for a fixed single-character `#[token(...)]` rule. -/
def matchOneChar (x : Char) (cs : List Char) : Option Nat :=
  match cs with
  | c :: _ => if c == x then some 1 else none
  | [] => none

/-- What the lexing engine does with a matched rule: skip the slice (the
    whitespace rule uses `logos::skip`), emit a fixed token kind, or emit a
    `Literal` token whose sub-kind comes from the `LiteralKind::parse`
    callback shared by every literal rule. -/
inductive RuleAction where
  | skip : RuleAction
  | lit : RuleAction
  | tok : TokenKind → RuleAction
deriving DecidableEq, Repr

/-- Constructor selector for the `LiteralKind` rules: which variant the rule
    produces from the matched slice. -/
inductive LitAction where
  | int : LitAction
  | float : LitAction
  | chr : LitAction
  | str : LitAction
deriving DecidableEq, Repr

/-- One lexical rule: an action plus a maximal-munch slice matcher returning
    the number of characters matched. -/
structure Rule (A : Type) where
  action : A
  matcher : List Char → Option Nat

/-- One step of longest-match selection: keep the incumbent unless the next
    rule matches strictly more characters. -/
def pickBest {A : Type} (cs : List Char) (best : Option (A × Nat)) (r : Rule A) :
    Option (A × Nat) :=
  match r.matcher cs with
  | none => best
  | some n =>
    match best with
    | none => some (r.action, n)
    | some (a, m) => if m < n then some (r.action, n) else some (a, m)

/-- Longest-match selection over a rule set, modelling the logos DFA: the rule
    with the longest match at the current position wins; on a tie the earlier
    rule of the list wins (the rule sets embedded here have no cross-kind
    ties of equal length). -/
def bestMatch {A : Type} (rules : List (Rule A)) (cs : List Char) : Option (A × Nat) :=
  rules.foldl (pickBest cs) none

/-- Check that a rule action can never emit a whitespace or error-kinded
    token: it either skips, or defers to the literal callback, or emits a
    fixed kind that is neither `Whitespace` nor `Error`. -/
def ruleActionOk : RuleAction → Bool
  | .skip => true
  | .lit => true
  | .tok k => !(k == .Whitespace) && !(k == .Error)


/-- The logos rule set of the `TokenKind` enum, in source order. -/
def tokenRules : List (Rule RuleAction) :=
  [⟨.tok .Ident, matchIdent⟩,
   ⟨.skip, matchWhitespace⟩,
   ⟨.tok .LineComment, matchLineComment⟩,
   ⟨.tok .BlockComment, matchBlockComment⟩,
   ⟨.lit, matchIntDec⟩,
   ⟨.lit, matchIntHex⟩,
   ⟨.lit, matchIntDig⟩,
   ⟨.lit, matchIntOct⟩,
   ⟨.lit, matchIntBin⟩,
   ⟨.lit, matchFloatDot⟩,
   ⟨.lit, matchFloatExp⟩,
   ⟨.lit, matchCharLit⟩,
   ⟨.lit, matchStringTok⟩,
   ⟨.tok .Semi, matchOneChar ';'⟩,
   ⟨.tok .OpenBrace, matchOneChar '\x7b'⟩,
   ⟨.tok .CloseBrace, matchOneChar '\x7d'⟩,
   ⟨.tok .OpenParen, matchOneChar '('⟩,
   ⟨.tok .CloseParen, matchOneChar ')'⟩,
   ⟨.tok .OpenBracket, matchOneChar '['⟩,
   ⟨.tok .CloseBracket, matchOneChar ']'⟩,
   ⟨.tok .Plus, matchOneChar '+'⟩,
   ⟨.tok .Minus, matchOneChar '-'⟩,
   ⟨.tok .Star, matchOneChar '*'⟩,
   ⟨.tok .Slash, matchOneChar '/'⟩,
   ⟨.tok .Percent, matchOneChar '%'⟩,
   ⟨.tok .Eq, matchOneChar '='⟩,
   ⟨.tok .Not, matchOneChar '!'⟩,
   ⟨.tok .And, matchOneChar '&'⟩,
   ⟨.tok .Or, matchOneChar '|'⟩,
   ⟨.tok .Lt, matchOneChar '<'⟩,
   ⟨.tok .Gt, matchOneChar '>'⟩,
   ⟨.tok .Caret, matchOneChar '^'⟩,
   ⟨.tok .Tilde, matchOneChar '~'⟩,
   ⟨.tok .Question, matchOneChar '?'⟩,
   ⟨.tok .Colon, matchOneChar ':'⟩,
   ⟨.tok .Dot, matchOneChar '.'⟩,
   ⟨.tok .At, matchOneChar '@'⟩]

/-- The logos rule set of the `LiteralKind` enum, in source order. -/
def literalRules : List (Rule LitAction) :=
  [⟨.int, matchIntDec⟩,
   ⟨.int, matchIntHex⟩,
   ⟨.int, matchIntDig⟩,
   ⟨.int, matchIntOct⟩,
   ⟨.int, matchIntBin⟩,
   ⟨.float, matchFloatDot⟩,
   ⟨.float, matchFloatExp⟩,
   ⟨.chr, matchCharLit⟩,
   ⟨.chr, matchUnicodeCharLit⟩,
   ⟨.str, matchStringLit⟩]

/-- The matchers of the integer and float literal rules (shared between the
    `TokenKind` and `LiteralKind` rule sets). -/
def numericMatchers : List (List Char → Option Nat) :=
  [matchIntDec, matchIntHex, matchIntDig, matchIntOct, matchIntBin,
   matchFloatDot, matchFloatExp]

/-- Characters that can start an integer or float literal match: a sign, a
    dot, or a digit.  Used to show the numeric rules never tie with the
    char-literal or string-literal rules. -/
def numericHead (c : Char) : Bool :=
  c == '+' || c == '-' || c == '.' || isDigitChar c

/-- Variant produced by a `LiteralKind` rule for a matched slice; every
    integer rule and every float rule calls the same `Base::parse` on the
    full slice. -/
def LitAction.kind : LitAction → List Char → LiteralKind
  | .int, slice => .Int (Base.parse slice)
  | .float, slice => .Float (Base.parse slice)
  | .chr, _ => .Char
  | .str, _ => .String

/-- Embedding of `LiteralKind::parse` from styxc_lexer (named outside the
    `LiteralKind` namespace because the namespace's `Char` constructor would
    capture the `Char` type): run the `LiteralKind` lexer on the slice and
    take its first token.  On nonempty input that no rule matches, logos
    yields the `#[error]` variant (`Ok(Error)`); only an empty input produces
    `lex.next() == None`, hence `Err`. -/
def literalKindParse (s : List Char) : Except Unit LiteralKind :=
  if s.isEmpty then .error ()
  else
    match bestMatch literalRules s with
    | some (a, n) => .ok (a.kind (s.take n))
    | none => .ok .Error

/-- Embedding of the struct `Token` from styxc_lexer; `index`/`len` are byte
    positions and `slice` is the matched text. -/
structure Token where
  kind : TokenKind
  index : Nat
  len : Nat
  slice : List Char
deriving DecidableEq, Repr

/-- Order of two tokens as required of an emitted token stream: the second
    starts at or after the end of the first, and strictly after its start. -/
def span_before (a b : Token) : Prop :=
  a.index + a.len ≤ b.index ∧ a.index < b.index

/-- Embedding of the struct `LexerError` from styxc_lexer. -/
structure LexerError where
  index : Nat
  line : Nat
  col : Nat
  slice : List Char
deriving DecidableEq, Repr

/-- Byte length of a character list under UTF-8, matching the byte spans that
    logos reports on `&str`. -/
def utf8Len (cs : List Char) : Nat :=
  cs.foldr (fun c n => c.utf8Size + n) 0

/-- The scanning loop of `TokenLexer::parse`: repeatedly take the best match
    at the current position; skip whitespace matches; push any other token;
    fail fast with a `LexerError` (line and col hard-coded to 0, as in the
    source) when no rule matches or when the lexer produced the `Error` kind.
    The `fuel` argument only bounds the recursion; every match consumes at
    least one character, so `source.length` steps always suffice and the
    fuel-exhausted branch is unreachable from `TokenLexer.parse`. -/
def scanAux : Nat → List Char → Nat → List Token → Except LexerError (List Token)
  | _, [], _, acc => .ok acc
  | 0, _ :: _, pos, _ => .error ⟨pos, 0, 0, []⟩
  | fuel + 1, c :: cs, pos, acc =>
    match bestMatch tokenRules (c :: cs) with
    | none => .error ⟨pos, 0, 0, [c]⟩
    | some (act, n) =>
      let slice := (c :: cs).take n
      let bl := utf8Len slice
      match act with
      | .skip => scanAux fuel ((c :: cs).drop n) (pos + bl) acc
      | .tok k => scanAux fuel ((c :: cs).drop n) (pos + bl) (acc ++ [⟨k, pos, bl, slice⟩])
      | .lit =>
        match literalKindParse slice with
        | .ok k =>
          scanAux fuel ((c :: cs).drop n) (pos + bl) (acc ++ [⟨.Literal k, pos, bl, slice⟩])
        | .error _ => .error ⟨pos, 0, 0, slice⟩

/-- Embedding of `TokenLexer::parse` from styxc_lexer. -/
def TokenLexer.parse (source : List Char) : Except LexerError (List Token) :=
  scanAux source.length source 0 []

theorem is_primitive_cases (t : Ty) (h : is_primitive t = true) :
    t = .Int ∨ t = .Float ∨ t = .Bool ∨ t = .String := by
  cases t <;> simp_all [is_primitive]

theorem equate_primitives_iff (a b : Ty) (ha : is_primitive a = true)
    (hb : is_primitive b = true) : equate_primitives a b = true ↔ a = b := by
  rcases is_primitive_cases a ha with h | h | h | h <;>
    rcases is_primitive_cases b hb with h' | h' | h' | h' <;>
      subst h <;> subst h' <;> simp [equate_primitives]

theorem equate_types_iff (a b : Ty) :
    equate_types a b = true ↔ (is_primitive a = true ∧ a = b) := by
  constructor
  · intro h
    unfold equate_types at h
    by_cases hab : (is_primitive a && is_primitive b) = true
    · rw [if_pos hab] at h
      have ha := (Bool.and_eq_true _ _).mp hab
      exact ⟨ha.1, (equate_primitives_iff a b ha.1 ha.2).mp h⟩
    · rw [if_neg hab] at h
      simp at h
  · rintro ⟨ha, rfl⟩
    unfold equate_types
    rw [if_pos (by rw [ha]; rfl)]
    exact (equate_primitives_iff a a ha ha).mpr rfl

theorem equate_types_self (t : Ty) : equate_types t t = is_primitive t := by
  rcases h : is_primitive t with _ | _
  · simp [equate_types, h]
  · exact (equate_types_iff t t).mpr ⟨h, rfl⟩

/-- C1: corrected claim.  `equate_types` returns true exactly for two
    identical primitives (Int, Float, Bool, String); every composite pairing,
    even a structurally identical one, and every non-primitive pairing such as
    Char with Char returns false; the function is total, so no pairing is an
    error. -/
theorem C1_equate_types_primitives_only :
    (∀ a b : Ty, equate_types a b = true ↔ (is_primitive a = true ∧ a = b))
    ∧ equate_types .Int .Int = true
    ∧ equate_types .Char .Char = false
    ∧ equate_types (.Tuple [.Int]) (.Tuple [.Int]) = false :=
  ⟨equate_types_iff, by decide, by decide, by decide⟩

/-- C1 counterexample: the claim asserts `equate_types(Char, Char) = true` and
    `equate_types(Tuple([Int]), Tuple([Int])) = true`; the code returns false
    for both, since Char is not one of the `is_primitive` types and the
    composite arm of `equate_types` is the catch-all `_ => false`. -/
theorem C1_counterexample :
    equate_types .Char .Char = false
    ∧ equate_types (.Tuple [.Int]) (.Tuple [.Int]) = false :=
  ⟨by decide, by decide⟩

/-- C3: corrected claim.  The insertion validators call `is_subtype` with the
    container's declared element/key/value type as the *first* argument, so
    insertion of `v` is accepted iff the declared type is a subtype of `v`
    (the flip of the claim's direction); any non-container argument yields
    false. -/
theorem C3_validate_insertion_flipped :
    (∀ v c : Ty, validate_array_insertion v c = true ↔
      ∃ t, c = .Array t ∧ is_subtype t v = true)
    ∧ (∀ v c : Ty, validate_set_insertion v c = true ↔
      ∃ t, c = .Set t ∧ is_subtype t v = true)
    ∧ (∀ k v c : Ty, validate_map_insertion k v c = true ↔
      ∃ kt vt, c = .Map kt vt ∧ is_subtype kt k = true ∧ is_subtype vt v = true) := by
  refine ⟨fun v c => ?_, fun v c => ?_, fun k v c => ?_⟩
  · cases c <;> simp [validate_array_insertion]
  · cases c <;> simp [validate_set_insertion]
  · cases c <;> simp [validate_map_insertion, Bool.and_eq_true, and_assoc]

/-- C3 counterexample: the claim's own example, inserting Int into
    Array(Union([Int, Float])), is rejected by the code even though
    `is_subtype(Int, Union([Int, Float]))` holds, because the code evaluates
    `is_subtype(Union([Int, Float]), Int)` instead. -/
theorem C3_counterexample :
    is_subtype .Int (.Union [.Int, .Float]) = true
    ∧ validate_array_insertion .Int (.Array (.Union [.Int, .Float])) = false :=
  ⟨by decide, by decide⟩

/-- C4: corrected claim.  Union membership is tested with `Vec::contains`,
    whose element equality is the `PartialEq` impl `equate_types`; hence
    `is_subtype(a, b)` holds iff `equate_types(a, b)` fails and `b` is a Union
    one of whose members is `equate_types`-equal to `a`.  Only primitive
    members can witness the membership, so syntactic membership of a
    non-primitive member does not suffice. -/
theorem C4_is_subtype_union_membership :
    (∀ a b : Ty, is_subtype a b = true ↔
      (equate_types a b = false ∧ ∃ ts, b = .Union ts ∧ ty_list_contains ts a = true))
    ∧ is_subtype .Int .Int = false
    ∧ is_subtype .Int (.Union [.Int, .Float]) = true := by
  refine ⟨fun a b => ?_, by decide, by decide⟩
  by_cases h : equate_types a b = true
  · unfold is_subtype
    rw [if_pos h]
    simp [h]
  · have h' : equate_types a b = false := Bool.eq_false_iff.mpr h
    unfold is_subtype
    rw [if_neg h]
    cases b <;> simp [h']

/-- C4 counterexample: the member list of Union([Char]) contains Char and
    `equate_types(Char, Union([Char]))` is false, yet
    `is_subtype(Char, Union([Char]))` returns false — membership is tested
    with `equate_types`, under which Char is not even equal to itself. -/
theorem C4_counterexample :
    Ty.Char ∈ [Ty.Char]
    ∧ equate_types .Char (.Union [.Char]) = false
    ∧ is_subtype .Char (.Union [.Char]) = false :=
  ⟨List.mem_singleton.mpr rfl, by decide, by decide⟩

/-- C7: corrected claim.  In `Walker::get_expr_type` both operand types of a
    binary expression are computed from the *left* child (`bin_op.value.lhs`
    twice), so the result is `intersect(tl, tl)` where `tl` is the left
    operand's type: `tl` itself when `tl` is primitive and `Never` otherwise.
    The right child never influences the result. -/
theorem C7_binary_type_from_lhs :
    (∀ (w : Walker) (lhs rhs : Node Expr) (op : BinaryOp) (sp : Span),
      w.get_expr_type (.BinaryExpr ⟨.mk lhs rhs op, sp⟩)
        = (w.get_expr_type lhs.value).map
            (fun tl => if is_primitive tl then tl else .Never))
    ∧ (∀ (w : Walker) (lhs rhs rhs' : Node Expr) (op : BinaryOp) (sp : Span),
      w.get_expr_type (.BinaryExpr ⟨.mk lhs rhs op, sp⟩)
        = w.get_expr_type (.BinaryExpr ⟨.mk lhs rhs' op, sp⟩)) := by
  constructor
  · intro w lhs rhs op sp
    obtain ⟨lv, lsp⟩ := lhs
    show (do
      let l ← w.get_expr_type lv
      let r ← w.get_expr_type lv
      pure (l.intersect r)) = _
    cases h : w.get_expr_type lv with
    | none => simp [h]
    | some t =>
      simp [h, Ty.intersect, equate_types_self]
  · intro w lhs rhs rhs' op sp
    obtain ⟨lv, lsp⟩ := lhs
    rfl

/-- C7 counterexample: a binary expression whose left operand is an Int
    literal and whose right operand is a Float literal is typed `Int` by the
    code, not `intersect(Int, Float) = Never` as the claim requires. -/
theorem C7_counterexample :
    Walker.new.get_expr_type (.Literal ⟨.Int 1, ⟨0, 1⟩⟩) = some .Int
    ∧ Walker.new.get_expr_type (.Literal ⟨.Float, ⟨4, 7⟩⟩) = some .Float
    ∧ Ty.intersect .Int .Float = .Never
    ∧ Walker.new.get_expr_type
        (.BinaryExpr ⟨.mk ⟨.Literal ⟨.Int 1, ⟨0, 1⟩⟩, ⟨0, 1⟩⟩
                        ⟨.Literal ⟨.Float, ⟨4, 7⟩⟩, ⟨4, 7⟩⟩ .Plus, ⟨0, 7⟩⟩)
        = some .Int
    ∧ some Ty.Int ≠ some Ty.Never := by
  refine ⟨rfl, rfl, rfl, rfl, ?_⟩
  intro h
  exact Ty.noConfusion (Option.some.inj h)

theorem find?_eq_head?_filter {α : Type} (p : α → Bool) (l : List α) :
    l.find? p = (l.filter p).head? := by
  induction l with
  | nil => rfl
  | cons x xs ih =>
    by_cases h : p x = true
    · rw [List.find?_cons_of_pos _ h, List.filter_cons_of_pos h]
      rfl
    · rw [List.find?_cons_of_neg _ h, List.filter_cons_of_neg (by simpa using h), ih]

theorem stack_find_eq_getLast?_filter {T : Type} (vs : List T) (p : T → Bool) :
    (Stack.mk vs).find p = (vs.filter p).getLast? := by
  show List.find? p vs.reverse = _
  rw [find?_eq_head?_filter, List.filter_reverse, List.head?_reverse]

theorem foldl_push_contents {T : Type} (vs : List T) (s : Stack T) :
    (vs.foldl Stack.push s).contents = s.contents ++ vs := by
  induction vs generalizing s with
  | nil => simp
  | cons x xs ih =>
    simp [List.foldl_cons, ih, Stack.push]

/-- C8: confirmed claim.  Pushing records appends them in order; the lookup
    returns the last pushed record whose name matches (the `getLast?` of the
    name-filtered sequence, hence shadowing), `none` exactly when no record
    matches, and typing an identifier expression yields the found variable's
    type or `Infer` when unresolved — always a `some`, never an error. -/
theorem C8_lookup_variable_shadowing :
    (∀ vs : List Variable, (vs.foldl Stack.push (Stack.new Variable)).contents = vs)
    ∧ (∀ (vs : List Variable) (name : String),
        (walker_with_vars vs).lookup_variable name
          = (vs.filter (fun v => v.name == name)).getLast?)
    ∧ (∀ (vs : List Variable) (name : String),
        (walker_with_vars vs).lookup_variable name = none ↔ ∀ v ∈ vs, v.name ≠ name)
    ∧ (∀ (vs : List Variable) (id : Node String) (v : Variable),
        (walker_with_vars vs).lookup_variable id.value = some v →
        (walker_with_vars vs).get_expr_type (.Ident id) = some v.ty)
    ∧ (∀ (vs : List Variable) (id : Node String),
        (walker_with_vars vs).lookup_variable id.value = none →
        (walker_with_vars vs).get_expr_type (.Ident id) = some .Infer)
    ∧ ((walker_with_vars [⟨"x", false, .Int⟩, ⟨"x", false, .Float⟩]).lookup_variable ("x")
        = some ⟨"x", false, .Float⟩) := by
  refine ⟨fun vs => ?_, fun vs name => ?_, fun vs name => ?_,
          fun vs id v h => ?_, fun vs id h => ?_, ?_⟩
  · rw [foldl_push_contents]
    rfl
  · exact stack_find_eq_getLast?_filter vs _
  · show List.find? _ vs.reverse = none ↔ _
    rw [List.find?_eq_none]
    constructor
    · intro h v hv
      have := h v (List.mem_reverse.mpr hv)
      simpa using this
    · intro h v hv
      simpa using h v (List.mem_reverse.mp hv)
  · show some _ = _
    rw [show (walker_with_vars vs).lookup_variable id.value = some v from h]
  · show some _ = _
    rw [show (walker_with_vars vs).lookup_variable id.value = none from h]
  · rfl

/-- C8 witness: with one pushed record named x of type Int the identifier x
    types as Int, and in an empty walker an unresolved identifier types as
    Infer; both instantiate the universal parts of the theorem. -/
theorem C8_witness :
    (walker_with_vars [⟨"x", false, .Int⟩]).get_expr_type (.Ident ⟨"x", ⟨0, 1⟩⟩)
      = some .Int
    ∧ (walker_with_vars []).get_expr_type (.Ident ⟨"y", ⟨0, 1⟩⟩) = some .Infer :=
  ⟨C8_lookup_variable_shadowing.2.2.2.1 [⟨"x", false, .Int⟩] ⟨"x", ⟨0, 1⟩⟩
      ⟨"x", false, .Int⟩ rfl,
   C8_lookup_variable_shadowing.2.2.2.2.1 [] ⟨"y", ⟨0, 1⟩⟩ rfl⟩

theorem map_arg_types_eq_none_of_mem :
    ∀ (l : List ParenArgument) (arg : ParenArgument), arg ∈ l →
      type_from_string arg.type_expr.value = none → map_arg_types l = none := by
  intro l
  induction l with
  | nil => intro arg ha _; cases ha
  | cons x xs ih =>
    intro arg ha hf
    rcases List.mem_cons.mp ha with rfl | hmem
    · simp [map_arg_types, hf]
    · cases hx : type_from_string x.type_expr.value with
      | none => simp [map_arg_types, hx]
      | some t => simp [map_arg_types, hx, ih arg hmem hf]

/-- C10: confirmed claim.  The `From<String>` conversion succeeds exactly on
    the six primitive spellings and panics (modelled `none`) on everything
    else, unlike `FromStr`, which maps any unknown name to
    `Type::Reference`; consequently converting a `Function` whose argument
    annotation is a user-defined type name aborts (`none`). -/
theorem C10_from_string_panics :
    (∀ s : String, type_from_string s = none ↔
      s ∉ (["()", "bool", "char", "float", "int", "str"] : List String))
    ∧ (∀ s : String, s ∉ (["()", "bool", "char", "float", "int", "str"] : List String) →
      type_from_str s = .Reference s)
    ∧ (∀ (f : Function) (arg : ParenArgument), arg ∈ f.args →
      type_from_string arg.type_expr.value = none → function_to_type f = none) := by
  refine ⟨fun s => ?_, fun s hs => ?_, fun f arg hmem harg => ?_⟩
  · unfold type_from_string
    split <;> simp_all
  · unfold type_from_str
    split <;> simp_all
  · unfold function_to_type
    rw [map_arg_types_eq_none_of_mem f.args arg hmem harg]
    rfl

theorem takeWhileLen_le (p : Char → Bool) : ∀ cs : List Char, takeWhileLen p cs ≤ cs.length := by
  intro cs
  induction cs with
  | nil => exact Nat.le_refl 0
  | cons c cs ih =>
    unfold takeWhileLen
    split
    · simpa using ih
    · exact Nat.zero_le _

theorem takeWhileLen_head (p : Char → Bool) (c : Char) (rest : List Char)
    (h : takeWhileLen p (c :: rest) ≠ 0) : p c = true := by
  unfold takeWhileLen at h
  by_cases hp : p c = true
  · exact hp
  · rw [if_neg hp] at h
    exact absurd rfl h

theorem signLen_le (cs : List Char) : signLen cs ≤ cs.length := by
  cases cs with
  | nil => exact Nat.le_refl 0
  | cons c cs =>
    simp only [signLen, List.length_cons]
    split <;> omega

theorem matchDigits1_spec (digit : Char → Bool) (cs : List Char) (n : Nat)
    (h : matchDigits1 digit cs = some n) :
    0 < n ∧ n ≤ cs.length ∧ n = takeWhileLen digit cs := by
  unfold matchDigits1 at h
  split at h
  · exact absurd h (by simp)
  · rename_i hne
    cases h
    exact ⟨Nat.pos_of_ne_zero hne, takeWhileLen_le digit cs, rfl⟩

theorem matchIdent_spec (cs : List Char) (n : Nat) (h : matchIdent cs = some n) :
    0 < n ∧ n ≤ cs.length := by
  unfold matchIdent at h
  split at h
  · rename_i c rest
    split at h
    · cases h
      have := takeWhileLen_le isIdentContChar rest
      constructor
      · omega
      · simp
        omega
    · exact absurd h (by simp)
  · exact absurd h (by simp)

theorem matchWhitespace_spec (cs : List Char) (n : Nat) (h : matchWhitespace cs = some n) :
    0 < n ∧ n ≤ cs.length := by
  unfold matchWhitespace at h
  split at h
  · exact absurd h (by simp)
  · rename_i hne
    cases h
    exact ⟨Nat.pos_of_ne_zero hne, takeWhileLen_le isSpaceChar cs⟩

theorem matchLineComment_spec (cs : List Char) (n : Nat) (h : matchLineComment cs = some n) :
    0 < n ∧ n ≤ cs.length := by
  unfold matchLineComment at h
  split at h
  · rename_i rest
    split at h
    · exact absurd h (by simp)
    · rename_i hne
      cases h
      have := takeWhileLen_le (fun c => !(c == '\n')) rest
      constructor
      · omega
      · simp
        omega
  · exact absurd h (by simp)

theorem lastStarSlash_bound : ∀ (l : List Char) (i : Nat),
    lastStarSlash l = some i → i + 2 ≤ l.length := by
  intro l
  induction l with
  | nil => intro i h; simp [lastStarSlash] at h
  | cons c cs ih =>
    intro i h
    cases cs with
    | nil => simp [lastStarSlash] at h
    | cons d rest =>
      simp only [lastStarSlash] at h
      split at h
      · rename_i j heq
        cases h
        have := ih j heq
        simp at this ⊢
        omega
      · split at h
        · cases h
          simp
        · exact absurd h (by simp)

theorem matchBlockComment_spec (cs : List Char) (n : Nat) (h : matchBlockComment cs = some n) :
    0 < n ∧ n ≤ cs.length := by
  unfold matchBlockComment at h
  split at h
  · rename_i rest
    cases hr : lastStarSlash rest with
    | none => rw [hr] at h; exact absurd h (by simp)
    | some i =>
      rw [hr] at h
      simp at h
      have := lastStarSlash_bound rest i hr
      simp
      omega
  · exact absurd h (by simp)

theorem matchIntDec_spec (cs : List Char) (n : Nat) (h : matchIntDec cs = some n) :
    0 < n ∧ n ≤ cs.length := by
  unfold matchIntDec at h
  cases hd : matchDigits1 isDigitChar (cs.drop (signLen cs)) with
  | none => rw [hd] at h; exact absurd h (by simp)
  | some m =>
    rw [hd] at h
    simp at h
    obtain ⟨hm1, hm2, _⟩ := matchDigits1_spec _ _ _ hd
    have hs := signLen_le cs
    rw [List.length_drop] at hm2
    omega

theorem matchIntRadix_spec (marker : Char) (digit : Char → Bool) (cs : List Char) (n : Nat)
    (h : matchIntRadix marker digit cs = some n) : 0 < n ∧ n ≤ cs.length := by
  unfold matchIntRadix at h
  split at h
  · rename_i m rest heq
    split at h
    · cases hd : matchDigits1 digit rest with
      | none => rw [hd] at h; exact absurd h (by simp)
      | some k =>
        rw [hd] at h
        simp at h
        obtain ⟨hk1, hk2, _⟩ := matchDigits1_spec _ _ _ hd
        have hs := signLen_le cs
        have hlen : (cs.drop (signLen cs)).length = 2 + rest.length := by
          rw [heq]; simp; try omega
        rw [List.length_drop] at hlen
        omega
    · exact absurd h (by simp)
  · exact absurd h (by simp)

theorem matchFloatDot_spec (cs : List Char) (n : Nat) (h : matchFloatDot cs = some n) :
    0 < n ∧ n ≤ cs.length := by
  unfold matchFloatDot at h
  split at h
  · rename_i rest heq
    cases hd : matchDigits1 isDigitChar rest with
    | none => rw [hd] at h; exact absurd h (by simp)
    | some k =>
      rw [hd] at h
      simp at h
      obtain ⟨hk1, hk2, _⟩ := matchDigits1_spec _ _ _ hd
      have hs := signLen_le cs
      have hd0 := takeWhileLen_le isDigitChar (cs.drop (signLen cs))
      rw [List.length_drop] at hd0
      have hlen : (cs.drop (signLen cs + takeWhileLen isDigitChar (cs.drop (signLen cs)))).length
          = 1 + rest.length := by
        rw [heq]; simp; try omega
      rw [List.length_drop] at hlen
      omega
  · exact absurd h (by simp)

theorem matchFloatExp_spec (cs : List Char) (n : Nat) (h : matchFloatExp cs = some n) :
    0 < n ∧ n ≤ cs.length := by
  unfold matchFloatExp at h
  split at h
  · exact absurd h (by simp)
  · split at h
    · rename_i rest heq
      cases hd : matchDigits1 isDigitChar (rest.drop (signLen rest)) with
      | none => rw [hd] at h; exact absurd h (by simp)
      | some k =>
        rw [hd] at h
        simp at h
        obtain ⟨hk1, hk2, _⟩ := matchDigits1_spec _ _ _ hd
        have hs := signLen_le cs
        have hs2 := signLen_le rest
        have hd0 := takeWhileLen_le isDigitChar (cs.drop (signLen cs))
        rw [List.length_drop] at hd0
        have hlen : (cs.drop (signLen cs + takeWhileLen isDigitChar (cs.drop (signLen cs)))).length
            = 1 + rest.length := by
          rw [heq]; simp; try omega
        rw [List.length_drop] at hlen
        rw [List.length_drop] at hk2
        omega
    · exact absurd h (by simp)

theorem matchCharLit_spec (cs : List Char) (n : Nat) (h : matchCharLit cs = some n) :
    0 < n ∧ n ≤ cs.length := by
  unfold matchCharLit at h
  split at h
  · split at h
    · exact absurd h (by simp)
    · cases h
      simp
  · exact absurd h (by simp)

theorem matchUnicodeCharLit_spec (cs : List Char) (n : Nat)
    (h : matchUnicodeCharLit cs = some n) : 0 < n ∧ n ≤ cs.length := by
  unfold matchUnicodeCharLit at h
  split at h
  · split at h
    · cases h
      simp
    · exact absurd h (by simp)
  · exact absurd h (by simp)

theorem lastIdxOf_bound : ∀ (x : Char) (l : List Char) (i : Nat),
    lastIdxOf x l = some i → i < l.length := by
  intro x l
  induction l with
  | nil => intro i h; simp [lastIdxOf] at h
  | cons c cs ih =>
    intro i h
    simp only [lastIdxOf] at h
    split at h
    · rename_i j heq
      cases h
      have := ih j heq
      simp
      omega
    · split at h
      · cases h
        simp
      · exact absurd h (by simp)

theorem matchStringTok_spec (cs : List Char) (n : Nat) (h : matchStringTok cs = some n) :
    0 < n ∧ n ≤ cs.length := by
  unfold matchStringTok at h
  split at h
  · rename_i rest
    cases hr : lastIdxOf '"' rest with
    | none => rw [hr] at h; exact absurd h (by simp)
    | some i =>
      rw [hr] at h
      simp at h
      have := lastIdxOf_bound '"' rest i hr
      simp
      omega
  · exact absurd h (by simp)

theorem litStringEnd_bound : ∀ (l : List Char) (pos : Nat), ∀ e,
    litStringEnd l pos = some e → pos < e ∧ e ≤ pos + l.length := by
  intro l pos
  induction l, pos using litStringEnd.induct with
  | case1 pos =>
    intro e h
    rw [litStringEnd.eq_1] at h
    exact absurd h (by simp)
  | case2 tail pos =>
    intro e h
    rw [litStringEnd.eq_2] at h
    cases h
    simp
  | case3 rest pos i hrec ih =>
    intro e h
    rw [litStringEnd.eq_3, hrec] at h
    cases h
    have := ih i hrec
    simp at this ⊢
    omega
  | case4 rest pos hrec ih =>
    intro e h
    rw [litStringEnd.eq_3, hrec] at h
    cases h
    simp
  | case5 hd rest pos hne1 hne2 ih =>
    intro e h
    rw [litStringEnd.eq_4 pos hd rest hne1 hne2] at h
    have := ih e h
    simp at this ⊢
    omega

theorem matchStringLit_spec (cs : List Char) (n : Nat) (h : matchStringLit cs = some n) :
    0 < n ∧ n ≤ cs.length := by
  unfold matchStringLit at h
  split at h
  · rename_i rest
    have := litStringEnd_bound rest 1 n h
    simp
    omega
  · exact absurd h (by simp)

theorem matchOneChar_spec (x : Char) (cs : List Char) (n : Nat)
    (h : matchOneChar x cs = some n) : 0 < n ∧ n ≤ cs.length := by
  unfold matchOneChar at h
  split at h
  · split at h
    · cases h
      simp
    · exact absurd h (by simp)
  · exact absurd h (by simp)

theorem tokenRules_spec : ∀ r ∈ tokenRules, (∀ (cs : List Char) (n : Nat),
    r.matcher cs = some n → 0 < n ∧ n ≤ cs.length) ∧ ruleActionOk r.action = true := by
  intro r hr
  simp only [tokenRules, List.mem_cons, List.not_mem_nil, or_false] at hr
  rcases hr with rfl|rfl|rfl|rfl|rfl|rfl|rfl|rfl|rfl|rfl|rfl|rfl|rfl|rfl|rfl|rfl|rfl|rfl|rfl|
    rfl|rfl|rfl|rfl|rfl|rfl|rfl|rfl|rfl|rfl|rfl|rfl|rfl|rfl|rfl|rfl|rfl|rfl
  all_goals refine ⟨fun cs n h => ?_, rfl⟩
  all_goals first
    | exact matchIdent_spec cs n h
    | exact matchWhitespace_spec cs n h
    | exact matchLineComment_spec cs n h
    | exact matchBlockComment_spec cs n h
    | exact matchIntDec_spec cs n h
    | exact matchIntRadix_spec _ _ cs n h
    | exact matchFloatDot_spec cs n h
    | exact matchFloatExp_spec cs n h
    | exact matchCharLit_spec cs n h
    | exact matchStringTok_spec cs n h
    | exact matchOneChar_spec _ cs n h

theorem literalRules_spec : ∀ r ∈ literalRules, ∀ (cs : List Char) (n : Nat),
    r.matcher cs = some n → 0 < n ∧ n ≤ cs.length := by
  intro r hr cs n h
  simp only [literalRules, List.mem_cons, List.not_mem_nil, or_false] at hr
  rcases hr with rfl|rfl|rfl|rfl|rfl|rfl|rfl|rfl|rfl|rfl
  all_goals first
    | exact matchIntDec_spec cs n h
    | exact matchIntRadix_spec _ _ cs n h
    | exact matchFloatDot_spec cs n h
    | exact matchFloatExp_spec cs n h
    | exact matchCharLit_spec cs n h
    | exact matchUnicodeCharLit_spec cs n h
    | exact matchStringLit_spec cs n h

theorem pickBest_origin {A : Type} (cs : List Char) (best : Option (A × Nat)) (r : Rule A)
    (a : A) (n : Nat) (h : pickBest cs best r = some (a, n)) :
    best = some (a, n) ∨ (r.action = a ∧ r.matcher cs = some n) := by
  unfold pickBest at h
  split at h
  · left; exact h
  · rename_i m hm
    split at h
    · right
      cases h
      exact ⟨rfl, hm⟩
    · split at h
      · right
        cases h
        exact ⟨rfl, hm⟩
      · left
        exact h

theorem foldl_pickBest_origin {A : Type} (cs : List Char) :
    ∀ (rs : List (Rule A)) (init : Option (A × Nat)) (a : A) (n : Nat),
      rs.foldl (pickBest cs) init = some (a, n) →
      init = some (a, n) ∨ ∃ r ∈ rs, r.action = a ∧ r.matcher cs = some n := by
  intro rs
  induction rs with
  | nil => intro init a n h; left; exact h
  | cons r rs ih =>
    intro init a n h
    simp only [List.foldl_cons] at h
    rcases ih (pickBest cs init r) a n h with h2 | ⟨r2, hr2, he⟩
    · rcases pickBest_origin cs init r a n h2 with h3 | h3
      · left; exact h3
      · right; exact ⟨r, List.mem_cons_self r rs, h3⟩
    · right; exact ⟨r2, List.mem_cons_of_mem r hr2, he⟩

theorem bestMatch_origin {A : Type} (rs : List (Rule A)) (cs : List Char)
    (a : A) (n : Nat) (h : bestMatch rs cs = some (a, n)) :
    ∃ r ∈ rs, r.action = a ∧ r.matcher cs = some n := by
  rcases foldl_pickBest_origin cs rs none a n h with h2 | h2
  · exact absurd h2 (by simp)
  · exact h2

theorem pickBest_mono {A : Type} (cs : List Char) (a : A) (m : Nat) (r : Rule A) :
    ∃ a2 m2, pickBest cs (some (a, m)) r = some (a2, m2) ∧ m ≤ m2 := by
  unfold pickBest
  cases hn : r.matcher cs with
  | none => exact ⟨a, m, rfl, Nat.le_refl m⟩
  | some n =>
    by_cases hlt : m < n
    · exact ⟨r.action, n, by simp [hlt], Nat.le_of_lt hlt⟩
    · exact ⟨a, m, by simp [hlt], Nat.le_refl m⟩

theorem foldl_pickBest_ge {A : Type} (cs : List Char) :
    ∀ (rs : List (Rule A)) (a : A) (m : Nat),
      ∃ a2 m2, rs.foldl (pickBest cs) (some (a, m)) = some (a2, m2) ∧ m ≤ m2 := by
  intro rs
  induction rs with
  | nil => intro a m; exact ⟨a, m, rfl, Nat.le_refl m⟩
  | cons r rs ih =>
    intro a m
    obtain ⟨a2, m2, hp, hm⟩ := pickBest_mono cs a m r
    obtain ⟨a3, m3, hf, hm2⟩ := ih a2 m2
    refine ⟨a3, m3, ?_, Nat.le_trans hm hm2⟩
    simp only [List.foldl_cons, hp, hf]

theorem foldl_pickBest_mem_ge {A : Type} (cs : List Char) :
    ∀ (rs : List (Rule A)) (init : Option (A × Nat)) (r : Rule A), r ∈ rs →
      ∀ n, r.matcher cs = some n →
      ∃ a2 m2, rs.foldl (pickBest cs) init = some (a2, m2) ∧ n ≤ m2 := by
  intro rs
  induction rs with
  | nil => intro init r hr; cases hr
  | cons r0 rs ih =>
    intro init r hr n hn
    rcases List.mem_cons.mp hr with rfl | hmem
    · have hstep : ∃ a1 m1, pickBest cs init r = some (a1, m1) ∧ n ≤ m1 := by
        unfold pickBest
        rw [hn]
        cases init with
        | none => exact ⟨r.action, n, rfl, Nat.le_refl n⟩
        | some p =>
          obtain ⟨a0, m0⟩ := p
          by_cases hlt : m0 < n
          · exact ⟨r.action, n, by simp [hlt], Nat.le_refl n⟩
          · exact ⟨a0, m0, by simp [hlt], by omega⟩
      obtain ⟨a1, m1, hp, hm⟩ := hstep
      obtain ⟨a2, m2, hf, hm2⟩ := foldl_pickBest_ge cs rs a1 m1
      refine ⟨a2, m2, ?_, Nat.le_trans hm hm2⟩
      simp only [List.foldl_cons, hp, hf]
    · have := ih (pickBest cs init r0) r hmem n hn
      simpa only [List.foldl_cons] using this

theorem bestMatch_ge {A : Type} (rs : List (Rule A)) (cs : List Char) (r : Rule A)
    (hr : r ∈ rs) (n : Nat) (hn : r.matcher cs = some n) :
    ∃ a2 m2, bestMatch rs cs = some (a2, m2) ∧ n ≤ m2 :=
  foldl_pickBest_mem_ge cs rs none r hr n hn

theorem bestMatch_tokenRules_spec (cs : List Char) (a : RuleAction) (n : Nat)
    (h : bestMatch tokenRules cs = some (a, n)) :
    (0 < n ∧ n ≤ cs.length) ∧ ruleActionOk a = true := by
  rcases bestMatch_origin tokenRules cs a n h with ⟨r, hr, ha, hm⟩
  obtain ⟨hspec, hok⟩ := tokenRules_spec r hr
  exact ⟨hspec cs n hm, ha ▸ hok⟩

theorem bestMatch_literalRules_spec (cs : List Char) (a : LitAction) (n : Nat)
    (h : bestMatch literalRules cs = some (a, n)) : 0 < n ∧ n ≤ cs.length := by
  rcases bestMatch_origin literalRules cs a n h with ⟨r, hr, _, hm⟩
  exact literalRules_spec r hr cs n hm

theorem utf8Len_cons (c : Char) (rest : List Char) :
    utf8Len (c :: rest) = c.utf8Size + utf8Len rest := rfl

theorem utf8Len_pos (c : Char) (rest : List Char) : 0 < utf8Len (c :: rest) := by
  rw [utf8Len_cons]
  have := Char.utf8Size_pos c
  omega

theorem utf8Len_append : ∀ (l1 l2 : List Char), utf8Len (l1 ++ l2) = utf8Len l1 + utf8Len l2 := by
  intro l1 l2
  induction l1 with
  | nil => simp [utf8Len]
  | cons c rest ih =>
    rw [List.cons_append, utf8Len_cons, utf8Len_cons, ih]
    omega

theorem take_pos_cons (c : Char) (cs2 : List Char) (n : Nat) (hn : 0 < n) :
    (c :: cs2).take n = c :: cs2.take (n - 1) := by
  cases n with
  | zero => omega
  | succ k => rfl

theorem scanAux_ok_inv : ∀ (fuel : Nat) (cs : List Char) (pos : Nat) (acc toks : List Token),
    scanAux fuel cs pos acc = .ok toks →
    (∀ t ∈ acc, t.kind ≠ .Whitespace ∧ t.kind ≠ .Error ∧ 0 < t.len ∧ t.index + t.len ≤ pos) →
    List.Pairwise span_before acc →
    (∀ t ∈ toks, t.kind ≠ .Whitespace ∧ t.kind ≠ .Error ∧ 0 < t.len)
    ∧ List.Pairwise span_before toks := by
  intro fuel
  induction fuel with
  | zero =>
    intro cs pos acc toks h hInv hPw
    cases cs with
    | nil =>
      simp only [scanAux] at h
      cases h
      exact ⟨fun t ht => ⟨(hInv t ht).1, (hInv t ht).2.1, (hInv t ht).2.2.1⟩, hPw⟩
    | cons c cs2 => simp [scanAux] at h
  | succ fuel ih =>
    intro cs pos acc toks h hInv hPw
    cases cs with
    | nil =>
      simp only [scanAux] at h
      cases h
      exact ⟨fun t ht => ⟨(hInv t ht).1, (hInv t ht).2.1, (hInv t ht).2.2.1⟩, hPw⟩
    | cons c cs2 =>
      simp only [scanAux] at h
      cases hbm : bestMatch tokenRules (c :: cs2) with
      | none =>
        rw [hbm] at h
        simp at h
      | some p =>
        obtain ⟨act, n⟩ := p
        rw [hbm] at h
        obtain ⟨⟨hn1, _⟩, hok⟩ := bestMatch_tokenRules_spec _ _ _ hbm
        have hbl : 0 < utf8Len ((c :: cs2).take n) := by
          rw [take_pos_cons c cs2 n hn1]
          exact utf8Len_pos _ _
        cases act with
        | skip =>
          refine ih _ _ _ _ h ?_ hPw
          intro t ht
          obtain ⟨k1, k2, k3, k4⟩ := hInv t ht
          exact ⟨k1, k2, k3, by omega⟩
        | tok k =>
          have hk : k ≠ TokenKind.Whitespace ∧ k ≠ TokenKind.Error := by
            simp [ruleActionOk] at hok
            exact hok
          refine ih _ _ _ _ h ?_ ?_
          · intro t ht
            rcases List.mem_append.mp ht with hta | htb
            · obtain ⟨k1, k2, k3, k4⟩ := hInv t hta
              exact ⟨k1, k2, k3, by omega⟩
            · rw [List.mem_singleton] at htb
              subst htb
              exact ⟨hk.1, hk.2, hbl, Nat.le_refl _⟩
          · rw [List.pairwise_append]
            refine ⟨hPw, by simp, ?_⟩
            intro a ha b hb
            rw [List.mem_singleton] at hb
            subst hb
            obtain ⟨k1, k2, k3, k4⟩ := hInv a ha
            exact ⟨show a.index + a.len ≤ pos by omega, show a.index < pos by omega⟩
        | lit =>
          have h2 : (match literalKindParse ((c :: cs2).take n) with
              | .ok lk => scanAux fuel ((c :: cs2).drop n)
                  (pos + utf8Len ((c :: cs2).take n))
                  (acc ++ [(⟨TokenKind.Literal lk, pos, utf8Len ((c :: cs2).take n),
                            (c :: cs2).take n⟩ : Token)])
              | .error _ =>
                Except.error (⟨pos, 0, 0, (c :: cs2).take n⟩ : LexerError))
              = Except.ok toks := h
          cases hlp : literalKindParse ((c :: cs2).take n) with
          | error u =>
            rw [hlp] at h2
            simp at h2
          | ok lk =>
            rw [hlp] at h2
            refine ih _ _ _ _ h2 ?_ ?_
            · intro t ht
              rcases List.mem_append.mp ht with hta | htb
              · obtain ⟨k1, k2, k3, k4⟩ := hInv t hta
                exact ⟨k1, k2, k3, by omega⟩
              · rw [List.mem_singleton] at htb
                subst htb
                exact ⟨by simp, by simp, hbl, Nat.le_refl _⟩
            · rw [List.pairwise_append]
              refine ⟨hPw, by simp, ?_⟩
              intro a ha b hb
              rw [List.mem_singleton] at hb
              subst hb
              obtain ⟨k1, k2, k3, k4⟩ := hInv a ha
              exact ⟨show a.index + a.len ≤ pos by omega, show a.index < pos by omega⟩

theorem literalKindParse_ok (s : List Char) (hs : s ≠ []) :
    ∃ k, literalKindParse s = .ok k := by
  unfold literalKindParse
  rw [if_neg (by simpa using hs)]
  cases hb : bestMatch literalRules s with
  | none => exact ⟨.Error, rfl⟩
  | some p =>
    obtain ⟨a, n⟩ := p
    exact ⟨_, rfl⟩

theorem scanAux_error_inv : ∀ (fuel : Nat) (cs : List Char) (pos : Nat) (acc : List Token)
    (e : LexerError), cs.length ≤ fuel → scanAux fuel cs pos acc = .error e →
    e.line = 0 ∧ e.col = 0 ∧
    ∃ mid suff, cs = mid ++ suff ∧ pos + utf8Len mid = e.index ∧
      bestMatch tokenRules suff = none ∧ e.slice = suff.take 1 := by
  intro fuel
  induction fuel with
  | zero =>
    intro cs pos acc e hf h
    cases cs with
    | nil => simp [scanAux] at h
    | cons c cs2 => simp at hf
  | succ fuel ih =>
    intro cs pos acc e hf h
    cases cs with
    | nil => simp [scanAux] at h
    | cons c cs2 =>
      simp only [scanAux] at h
      cases hbm : bestMatch tokenRules (c :: cs2) with
      | none =>
        rw [hbm] at h
        simp only [Except.error.injEq] at h
        subst h
        exact ⟨rfl, rfl, [], c :: cs2, rfl, by simp [utf8Len], hbm, rfl⟩
      | some p =>
        obtain ⟨act, n⟩ := p
        rw [hbm] at h
        obtain ⟨⟨hn1, hn2⟩, _⟩ := bestMatch_tokenRules_spec _ _ _ hbm
        have hfuel : ((c :: cs2).drop n).length ≤ fuel := by
          rw [List.length_drop]
          simp only [List.length_cons] at hn2 hf ⊢
          omega
        have step : ∀ acc2, scanAux fuel ((c :: cs2).drop n)
            (pos + utf8Len ((c :: cs2).take n)) acc2 = .error e →
            e.line = 0 ∧ e.col = 0 ∧
            ∃ mid suff, c :: cs2 = mid ++ suff ∧ pos + utf8Len mid = e.index ∧
              bestMatch tokenRules suff = none ∧ e.slice = suff.take 1 := by
          intro acc2 hrec
          obtain ⟨h1, h2, mid, suff, hsplit, hidx, hnone, hsl⟩ :=
            ih ((c :: cs2).drop n) _ acc2 e hfuel hrec
          refine ⟨h1, h2, (c :: cs2).take n ++ mid, suff, ?_, ?_, hnone, hsl⟩
          · rw [List.append_assoc, ← hsplit, List.take_append_drop]
          · rw [utf8Len_append]
            omega
        cases act with
        | skip => exact step _ h
        | tok k => exact step _ h
        | lit =>
          have h2 : (match literalKindParse ((c :: cs2).take n) with
              | .ok lk => scanAux fuel ((c :: cs2).drop n)
                  (pos + utf8Len ((c :: cs2).take n))
                  (acc ++ [(⟨TokenKind.Literal lk, pos, utf8Len ((c :: cs2).take n),
                            (c :: cs2).take n⟩ : Token)])
              | .error _ =>
                Except.error (⟨pos, 0, 0, (c :: cs2).take n⟩ : LexerError))
              = Except.error e := h
          cases hlp : literalKindParse ((c :: cs2).take n) with
          | ok lk =>
            rw [hlp] at h2
            exact step _ h2
          | error u =>
            exfalso
            obtain ⟨k, hk⟩ := literalKindParse_ok ((c :: cs2).take n)
              (by rw [take_pos_cons c cs2 n hn1]; simp)
            rw [hk] at hlp
            simp at hlp

/-- C2: corrected claim.  On success the emitted token sequence contains no
    whitespace tokens (the whitespace rule is `logos::skip`) and no error
    tokens — but line and block comments ARE pushed to the output, contrary
    to the claim; the code's own unit test expects a `LineComment` token in
    the parsed stream. -/
theorem C2_whitespace_skipped_comments_emitted :
    (∀ (src : List Char) (toks : List Token), TokenLexer.parse src = .ok toks →
      ∀ t ∈ toks, t.kind ≠ .Whitespace ∧ t.kind ≠ .Error)
    ∧ TokenLexer.parse ['#', 'a'] = .ok [⟨.LineComment, 0, 2, ['#', 'a']⟩]
    ∧ TokenLexer.parse ['/', '*', 'c', '*', '/'] =
        .ok [⟨.BlockComment, 0, 5, ['/', '*', 'c', '*', '/']⟩] := by
  refine ⟨?_, rfl, rfl⟩
  intro src toks h t ht
  have := scanAux_ok_inv src.length src 0 [] toks h (by simp) (by simp)
  exact ⟨(this.1 t ht).1, (this.1 t ht).2.1⟩

/-- C2 counterexample: lexing the two-character source consisting of a line
    comment succeeds and the returned sequence contains a `LineComment`
    token, refuting the claim that comment tokens are omitted from the
    emitted sequence. -/
theorem C2_counterexample :
    TokenLexer.parse ['#', 'a'] = .ok [⟨.LineComment, 0, 2, ['#', 'a']⟩]
    ∧ (⟨TokenKind.LineComment, 0, 2, ['#', 'a']⟩ : Token).kind = .LineComment :=
  ⟨rfl, rfl⟩

/-- C2 witness: instantiating the universal part on the one-identifier source
    shows its token is not whitespace. -/
theorem C2_witness :
    (⟨TokenKind.Ident, 0, 1, ['x']⟩ : Token).kind ≠ TokenKind.Whitespace :=
  ((C2_whitespace_skipped_comments_emitted.1 ['x'] [⟨.Ident, 0, 1, ['x']⟩] rfl)
    ⟨.Ident, 0, 1, ['x']⟩ (by simp)).1

/-- C9: confirmed claim.  On success every emitted token has positive byte
    length and the tokens' half-open spans are pairwise ordered: each token
    begins at or after the end of every earlier one, so byte offsets are
    strictly increasing and spans never overlap. -/
theorem C9_token_spans_partition :
    ∀ (src : List Char) (toks : List Token), TokenLexer.parse src = .ok toks →
      (∀ t ∈ toks, 0 < t.len) ∧ List.Pairwise span_before toks := by
  intro src toks h
  have := scanAux_ok_inv src.length src 0 [] toks h (by simp) (by simp)
  exact ⟨fun t ht => (this.1 t ht).2.2, this.2⟩

/-- C9 witness: the theorem applied to the source x = 1 (with its three
    emitted tokens at byte offsets 0, 2 and 4). -/
theorem C9_witness :
    List.Pairwise span_before
      [⟨TokenKind.Ident, 0, 1, ['x']⟩, ⟨TokenKind.Eq, 2, 1, ['=']⟩,
       ⟨TokenKind.Literal (.Int .Decimal), 4, 1, ['1']⟩]
    ∧ 0 < (⟨TokenKind.Ident, 0, 1, ['x']⟩ : Token).len :=
  ⟨(C9_token_spans_partition ['x', ' ', '=', ' ', '1']
      [⟨.Ident, 0, 1, ['x']⟩, ⟨.Eq, 2, 1, ['=']⟩,
       ⟨.Literal (.Int .Decimal), 4, 1, ['1']⟩] rfl).2,
   (C9_token_spans_partition ['x', ' ', '=', ' ', '1']
      [⟨.Ident, 0, 1, ['x']⟩, ⟨.Eq, 2, 1, ['=']⟩,
       ⟨.Literal (.Int .Decimal), 4, 1, ['1']⟩] rfl).1
     ⟨.Ident, 0, 1, ['x']⟩ (by simp)⟩

/-- C6: corrected claim.  When the scan itself reaches a position where no
    rule matches, the whole parse fails fast with a `LexerError` carrying the
    byte offset of that position, the offending slice, and line and column
    hard-coded to zero; the example input fails at byte offset 18 with slice
    ℵ.  However a source may *contain* an unmatchable position without
    failing when that position is consumed inside a longer token (see the
    counterexample), so the claim's quantification over sources merely
    containing such a position is corrected to scan-reached positions. -/
theorem C6_fail_fast_scan_errors :
    (∀ (src : List Char) (e : LexerError), TokenLexer.parse src = .error e →
      e.line = 0 ∧ e.col = 0 ∧
      ∃ pre suff, src = pre ++ suff ∧ utf8Len pre = e.index ∧
        bestMatch tokenRules suff = none ∧ e.slice = suff.take 1)
    ∧ TokenLexer.parse
        ['l', 'e', 't', ' ', 'h', 'e', 'l', 'l', 'o', '_', 'w', 'o', 'r', 'l', 'd',
         ' ', '=', ' ', 'ℵ'] = .error ⟨18, 0, 0, ['ℵ']⟩ := by
  refine ⟨?_, rfl⟩
  intro src e h
  obtain ⟨h1, h2, mid, suff, hsplit, hidx, hnone, hsl⟩ :=
    scanAux_error_inv src.length src 0 [] e (Nat.le_refl _) h
  exact ⟨h1, h2, mid, suff, hsplit, by omega, hnone, hsl⟩

/-- C6 counterexample: the source consisting of a line comment containing ℵ
    *contains* a position where no lexical rule matches (no rule matches at
    the ℵ), yet `TokenLexer::parse` succeeds, because the scan consumes that
    position inside the comment token; this refutes the claim's premise that
    any source containing an unmatchable position fails. -/
theorem C6_counterexample :
    bestMatch tokenRules ['ℵ'] = none
    ∧ TokenLexer.parse ['#', 'ℵ'] = .ok [⟨.LineComment, 0, 4, ['#', 'ℵ']⟩] :=
  ⟨rfl, rfl⟩

/-- C6 witness: the universal part of the theorem applied to the example
    input, whose error has line and column zero. -/
theorem C6_witness :
    (⟨18, 0, 0, ['ℵ']⟩ : LexerError).line = 0
    ∧ (⟨18, 0, 0, ['ℵ']⟩ : LexerError).col = 0 :=
  ⟨(C6_fail_fast_scan_errors.1
      ['l', 'e', 't', ' ', 'h', 'e', 'l', 'l', 'o', '_', 'w', 'o', 'r', 'l', 'd',
       ' ', '=', ' ', 'ℵ'] ⟨18, 0, 0, ['ℵ']⟩ rfl).1,
   (C6_fail_fast_scan_errors.1
      ['l', 'e', 't', ' ', 'h', 'e', 'l', 'l', 'o', '_', 'w', 'o', 'r', 'l', 'd',
       ' ', '=', ' ', 'ℵ'] ⟨18, 0, 0, ['ℵ']⟩ rfl).2.1⟩

theorem base_parse_eq_specBase (s : List Char) : Base.parse s = specBase s := by
  unfold Base.parse specBase
  generalize (if s.head? = some '-' then s.drop 1 else s) = t
  rcases t with _ | ⟨a, _ | ⟨b, t2⟩⟩
  · rfl
  · rw [if_pos (by simp)]
    split <;> simp_all
  · rw [if_neg (by simp)]
    simp only [List.take_succ_cons, List.take_zero]
    split <;> split <;> simp_all

theorem signLen_zero (c : Char) (rest : List Char)
    (hs : ¬(c == '+' || c == '-') = true) : signLen (c :: rest) = 0 := by
  simp only [signLen]
  rw [if_neg hs]

theorem matchIntDec_head (c : Char) (rest : List Char) (n : Nat)
    (h : matchIntDec (c :: rest) = some n) : numericHead c = true := by
  by_cases hs : (c == '+' || c == '-') = true
  · simp [numericHead, hs]
  · unfold matchIntDec at h
    rw [signLen_zero c rest hs] at h
    simp only [List.drop_zero] at h
    cases hd : matchDigits1 isDigitChar (c :: rest) with
    | none => rw [hd] at h; simp at h
    | some m =>
      obtain ⟨hm1, _, hmeq⟩ := matchDigits1_spec _ _ _ hd
      have hne : takeWhileLen isDigitChar (c :: rest) ≠ 0 := by omega
      have := takeWhileLen_head _ _ _ hne
      simp [numericHead, this]

theorem matchIntRadix_head (marker : Char) (digit : Char → Bool) (c : Char) (rest : List Char)
    (n : Nat) (h : matchIntRadix marker digit (c :: rest) = some n) : numericHead c = true := by
  by_cases hs : (c == '+' || c == '-') = true
  · simp [numericHead, hs]
  · unfold matchIntRadix at h
    rw [signLen_zero c rest hs] at h
    simp only [List.drop_zero] at h
    split at h
    · rename_i m r2 heq
      injection heq with h1 _
      subst h1
      decide
    · simp at h

theorem matchFloatDot_head (c : Char) (rest : List Char) (n : Nat)
    (h : matchFloatDot (c :: rest) = some n) : numericHead c = true := by
  by_cases hs : (c == '+' || c == '-') = true
  · simp [numericHead, hs]
  · unfold matchFloatDot at h
    rw [signLen_zero c rest hs] at h
    simp only [List.drop_zero, Nat.zero_add] at h
    by_cases hd0 : takeWhileLen isDigitChar (c :: rest) = 0
    · rw [hd0] at h
      simp only [List.drop_zero] at h
      split at h
      · rename_i r2 heq
        injection heq with h1 _
        subst h1
        decide
      · simp at h
    · have := takeWhileLen_head _ _ _ hd0
      simp [numericHead, this]

theorem matchFloatExp_head (c : Char) (rest : List Char) (n : Nat)
    (h : matchFloatExp (c :: rest) = some n) : numericHead c = true := by
  by_cases hs : (c == '+' || c == '-') = true
  · simp [numericHead, hs]
  · unfold matchFloatExp at h
    rw [signLen_zero c rest hs] at h
    simp only [List.drop_zero] at h
    split at h
    · simp at h
    · rename_i hd0
      have := takeWhileLen_head _ _ _ hd0
      simp [numericHead, this]

theorem matchCharLit_head (c : Char) (rest : List Char) (n : Nat)
    (h : matchCharLit (c :: rest) = some n) : c = '\'' := by
  unfold matchCharLit at h
  split at h
  · simp_all
  · simp at h

theorem matchUnicodeCharLit_head (c : Char) (rest : List Char) (n : Nat)
    (h : matchUnicodeCharLit (c :: rest) = some n) : c = '\'' := by
  unfold matchUnicodeCharLit at h
  split at h
  · simp_all
  · simp at h

theorem matchStringLit_head (c : Char) (rest : List Char) (n : Nat)
    (h : matchStringLit (c :: rest) = some n) : c = '"' := by
  unfold matchStringLit at h
  split at h
  · simp_all
  · simp at h

theorem numericMatchers_spec : ∀ m ∈ numericMatchers, ∀ (cs : List Char) (n : Nat),
    m cs = some n → 0 < n ∧ n ≤ cs.length := by
  intro m hm cs n h
  simp only [numericMatchers, List.mem_cons, List.not_mem_nil, or_false] at hm
  rcases hm with rfl|rfl|rfl|rfl|rfl|rfl|rfl
  · exact matchIntDec_spec cs n h
  · exact matchIntRadix_spec _ _ cs n h
  · exact matchIntRadix_spec _ _ cs n h
  · exact matchIntRadix_spec _ _ cs n h
  · exact matchIntRadix_spec _ _ cs n h
  · exact matchFloatDot_spec cs n h
  · exact matchFloatExp_spec cs n h

theorem numericMatchers_head : ∀ m ∈ numericMatchers, ∀ (c : Char) (rest : List Char) (n : Nat),
    m (c :: rest) = some n → numericHead c = true := by
  intro m hm c rest n h
  simp only [numericMatchers, List.mem_cons, List.not_mem_nil, or_false] at hm
  rcases hm with rfl|rfl|rfl|rfl|rfl|rfl|rfl
  · exact matchIntDec_head c rest n h
  · exact matchIntRadix_head _ _ c rest n h
  · exact matchIntRadix_head _ _ c rest n h
  · exact matchIntRadix_head _ _ c rest n h
  · exact matchIntRadix_head _ _ c rest n h
  · exact matchFloatDot_head c rest n h
  · exact matchFloatExp_head c rest n h

theorem numericMatchers_in_literalRules : ∀ m ∈ numericMatchers,
    ∃ r ∈ literalRules, r.matcher = m ∧ (r.action = .int ∨ r.action = .float) := by
  intro m hm
  simp only [numericMatchers, List.mem_cons, List.not_mem_nil, or_false] at hm
  rcases hm with rfl|rfl|rfl|rfl|rfl|rfl|rfl
  · exact ⟨⟨.int, matchIntDec⟩, by simp [literalRules], rfl, Or.inl rfl⟩
  · exact ⟨⟨.int, matchIntHex⟩, by simp [literalRules], rfl, Or.inl rfl⟩
  · exact ⟨⟨.int, matchIntDig⟩, by simp [literalRules], rfl, Or.inl rfl⟩
  · exact ⟨⟨.int, matchIntOct⟩, by simp [literalRules], rfl, Or.inl rfl⟩
  · exact ⟨⟨.int, matchIntBin⟩, by simp [literalRules], rfl, Or.inl rfl⟩
  · exact ⟨⟨.float, matchFloatDot⟩, by simp [literalRules], rfl, Or.inr rfl⟩
  · exact ⟨⟨.float, matchFloatExp⟩, by simp [literalRules], rfl, Or.inr rfl⟩

/-- C5: corrected claim.  The base of an integer or float literal slice is a
    pure function of the slice applied identically by every literal rule
    (`Base::parse` on the full slice), and it agrees with the spec-side
    reading (`specBase`) in which only a leading '-' is stripped before the
    two-character prefix is inspected.  A leading '+' is *not* stripped (the
    source tests only `starts_with("-")`), which is what the counterexample
    exploits; with that amendment the prefix table 0x/0o/0b/else holds, as
    the four concrete conjuncts show. -/
theorem C5_base_pure_function_of_slice :
    (∀ s : List Char, Base.parse s = specBase s)
    ∧ (∀ m ∈ numericMatchers, ∀ s : List Char, m s = some s.length →
        ∃ b, (literalKindParse s = .ok (.Int b) ∨ literalKindParse s = .ok (.Float b))
          ∧ b = Base.parse s)
    ∧ literalKindParse ['1', '2', '3', '4'] = .ok (.Int .Decimal)
    ∧ literalKindParse ['0', 'x', '1', '2', '3', '4'] = .ok (.Int .Hexadecimal)
    ∧ literalKindParse ['0', 'o', '1', '2', '3', '4'] = .ok (.Int .Octal)
    ∧ literalKindParse ['0', 'b', '1', '0', '1', '0', '0'] = .ok (.Int .Binary) := by
  refine ⟨base_parse_eq_specBase, ?_, rfl, rfl, rfl, rfl⟩
  intro m hm s hfull
  obtain ⟨hpos, _⟩ := numericMatchers_spec m hm s s.length hfull
  obtain ⟨c, rest, rfl⟩ : ∃ c rest, s = c :: rest := by
    cases s with
    | nil => simp at hpos
    | cons c rest => exact ⟨c, rest, rfl⟩
  have hhead := numericMatchers_head m hm c rest _ hfull
  obtain ⟨r, hrmem, hrm, _⟩ := numericMatchers_in_literalRules m hm
  obtain ⟨a2, m2, hbest, hge⟩ :=
    bestMatch_ge literalRules (c :: rest) r hrmem _ (by rw [hrm]; exact hfull)
  have hle := (bestMatch_literalRules_spec _ _ _ hbest).2
  have hm2 : m2 = (c :: rest).length := Nat.le_antisymm hle hge
  subst hm2
  have hlp : literalKindParse (c :: rest)
      = .ok (a2.kind ((c :: rest).take (c :: rest).length)) := by
    unfold literalKindParse
    rw [if_neg (by simp), hbest]
  rw [List.take_length] at hlp
  obtain ⟨r2, hr2mem, hr2act, hr2match⟩ := bestMatch_origin _ _ _ _ hbest
  simp only [literalRules, List.mem_cons, List.not_mem_nil, or_false] at hr2mem
  rcases hr2mem with rfl|rfl|rfl|rfl|rfl|rfl|rfl|rfl|rfl|rfl
  · subst hr2act; exact ⟨Base.parse (c :: rest), Or.inl hlp, rfl⟩
  · subst hr2act; exact ⟨Base.parse (c :: rest), Or.inl hlp, rfl⟩
  · subst hr2act; exact ⟨Base.parse (c :: rest), Or.inl hlp, rfl⟩
  · subst hr2act; exact ⟨Base.parse (c :: rest), Or.inl hlp, rfl⟩
  · subst hr2act; exact ⟨Base.parse (c :: rest), Or.inl hlp, rfl⟩
  · subst hr2act; exact ⟨Base.parse (c :: rest), Or.inr hlp, rfl⟩
  · subst hr2act; exact ⟨Base.parse (c :: rest), Or.inr hlp, rfl⟩
  · have hc := matchCharLit_head c rest _ hr2match
    subst hc
    exact absurd hhead (by decide)
  · have hc := matchUnicodeCharLit_head c rest _ hr2match
    subst hc
    exact absurd hhead (by decide)
  · have hc := matchStringLit_head c rest _ hr2match
    subst hc
    exact absurd hhead (by decide)

/-- C5 counterexample: the slice +0x1f is fully matched by the 0x integer
    rule, and its first two characters after the leading sign are 0x, yet
    the assigned base is Decimal, not Hexadecimal: `Base::parse` strips only
    a leading '-', so the '+' defeats the prefix inspection. -/
theorem C5_counterexample :
    matchIntHex ['+', '0', 'x', '1', 'f'] = some 5
    ∧ literalKindParse ['+', '0', 'x', '1', 'f'] = .ok (.Int .Decimal)
    ∧ Base.parse ['+', '0', 'x', '1', 'f'] = .Decimal :=
  ⟨rfl, rfl, rfl⟩

/-- C5 witness: the universal part applied to the hexadecimal slice 0x1f,
    fully matched by the 0x integer rule. -/
theorem C5_witness :
    literalKindParse ['0', 'x', '1', 'f'] = .ok (.Int .Hexadecimal) := by
  obtain ⟨b, hb | hb, heq⟩ :=
    C5_base_pure_function_of_slice.2.1 matchIntHex (by simp [numericMatchers])
      ['0', 'x', '1', 'f'] rfl
  · subst heq
    exact hb
  · subst heq
    have hcon := hb.symm.trans
      (show literalKindParse ['0', 'x', '1', 'f'] = .ok (.Int .Hexadecimal) from rfl)
    simp at hcon

/-- C10 witness: the user-defined name MyType panics under `From<String>`,
    becomes a `Reference` under `FromStr`, and aborts the conversion of a
    function that uses it as an argument annotation. -/
theorem C10_witness :
    type_from_string ("MyType") = none
    ∧ type_from_str ("MyType") = .Reference ("MyType")
    ∧ function_to_type ⟨"f", [⟨⟨"MyType", ⟨0, 6⟩⟩⟩], .Local, .Unit⟩ = none :=
  ⟨(C10_from_string_panics.1 ("MyType")).mpr (by decide),
   C10_from_string_panics.2.1 ("MyType") (by decide),
   C10_from_string_panics.2.2 ⟨"f", [⟨⟨"MyType", ⟨0, 6⟩⟩⟩], .Local, .Unit⟩
     ⟨⟨"MyType", ⟨0, 6⟩⟩⟩ (List.mem_singleton.mpr rfl)
     ((C10_from_string_panics.1 "MyType").mpr (by decide))⟩

/-- C1 witness: the amended equivalence instantiated at Int and Int. -/
theorem C1_witness : equate_types .Int .Int = true :=
  (C1_equate_types_primitives_only.1 Ty.Int Ty.Int).mpr ⟨rfl, rfl⟩

/-- C3 witness: the amended equivalence instantiated at a container whose
    declared element type Int is a subtype of the candidate
    Union([Int, Float]). -/
theorem C3_witness :
    validate_array_insertion (.Union [.Int, .Float]) (.Array .Int) = true :=
  (C3_validate_insertion_flipped.1 (.Union [.Int, .Float]) (.Array .Int)).mpr
    ⟨.Int, rfl, by decide⟩

/-- C4 witness: the amended equivalence instantiated at Int and
    Union([Int, Float]). -/
theorem C4_witness : is_subtype .Int (.Union [.Int, .Float]) = true :=
  (C4_is_subtype_union_membership.1 Ty.Int (.Union [.Int, .Float])).mpr
    ⟨by decide, [.Int, .Float], rfl, by decide⟩

/-- C7 witness: the amended equation instantiated at a binary expression with
    an Int-literal left operand and a Float-literal right operand. -/
theorem C7_witness :
    Walker.new.get_expr_type
      (.BinaryExpr ⟨.mk ⟨.Literal ⟨.Int 1, ⟨0, 1⟩⟩, ⟨0, 1⟩⟩
                      ⟨.Literal ⟨.Float, ⟨2, 3⟩⟩, ⟨2, 3⟩⟩ .Plus, ⟨0, 3⟩⟩)
      = some .Int := by
  rw [C7_binary_type_from_lhs.1 Walker.new ⟨.Literal ⟨.Int 1, ⟨0, 1⟩⟩, ⟨0, 1⟩⟩
      ⟨.Literal ⟨.Float, ⟨2, 3⟩⟩, ⟨2, 3⟩⟩ .Plus ⟨0, 3⟩]
  rfl
